import Mathlib

/-!
Verification of the go-tuf local store (local_store.go).

This file gives a shallow embedding of the two LocalStore backends of
local_store.go — the in-memory store (memoryStore) and the on-disk store
(fileSystemStore) — and proves properties of the commit/reconciliation
engine, the key store, and the metadata accessors.

Modelling conventions, fixed once for the whole file:

Filesystem trees.  A directory tree is a finite map from relative paths to
file contents, represented as an association list (`Tree`).  A path is the
list of its slash-separated components (`Path`); file contents are byte
lists (`Bytes`).  Directories themselves are not modelled: the Go code only
creates parent directories on demand and never observes empty ones (the
upstream TODO about removing empty directories is unimplemented there).

Strings.  Go operates on byte strings; all names appearing here are ASCII,
where Go byte order and comparison coincide with Lean Char order on the
string data.  Go library calls on strings are translated to structural
functions over `String.data` (`splitN2Dot` for strings.SplitN(s, ".", 2),
`strStartsWith` for strings.HasPrefix, `strLt` for the byte order that
sorts directory listings), so that everything reduces in the kernel.

Traversals.  filepath.Walk visits files in sorted order; the theorems below
are stated so that they do not depend on the visit order, and a staged or
published tree is simply traversed in its list order.

Errors.  Fallible operations return Except.  The only failure the
embedding itself can produce is the Go runtime panic (index out of range)
in the garbage-collection pass of Commit; I/O faults are modelled only
where a claim needs them, namely the set of paths whose os.Remove call
fails during garbage collection (`F` below), whose errors the Go code
ignores.
-/

namespace GoTuf

/-- File contents: a list of bytes. -/
abbrev Bytes := List Nat

/-- A relative filesystem path, as its list of slash-separated components. -/
abbrev Path := List String

/-- A directory tree: association list from relative path to file bytes.
The list order is the traversal order of filepath.Walk. -/
abbrev Tree := List (Path × Bytes)

/-- Lookup in a tree (os.Open / os.Stat on the joined path). -/
def treeFind : Tree → Path → Option Bytes
  | [], _ => none
  | e :: t, p => if e.1 = p then some e.2 else treeFind t p

/-- Write a file, overwriting any existing file at that path
(os.Create + io.Copy in createRepoFile / copyToRepo). -/
def treeInsert : Tree → Path → Bytes → Tree
  | [], p, b => [(p, b)]
  | e :: t, p, b => if e.1 = p then (p, b) :: t else e :: treeInsert t p b

/-- Go strings.HasPrefix, on string data (ASCII byte order = Char order). -/
def strStartsWith (s pre : String) : Bool := pre.data.isPrefixOf s.data

/-- Split a character list at the first dot: returns (before, after), or
none when no dot occurs.  Helper for strings.SplitN(s, ".", 2). -/
def breakDot : List Char → Option (List Char × List Char)
  | [] => none
  | c :: cs =>
    if c = '.' then some ([], cs)
    else match breakDot cs with
      | none => none
      | some (a, b) => some (c :: a, b)

/-- Go strings.SplitN(s, ".", 2): a one-element list when s has no dot,
otherwise the part before the first dot and everything after it. -/
def splitN2Dot (s : String) : List String :=
  match breakDot s.data with
  | none => [s]
  | some (a, b) => [String.mk a, String.mk b]

/-- Byte-wise lexicographic order on strings (the order in which Go
ioutil.ReadDir lists a directory); structural so the kernel can reduce it. -/
def listCharLt : List Char → List Char → Bool
  | [], [] => false
  | [], _ :: _ => true
  | _ :: _, [] => false
  | a :: as, b :: bs => if a < b then true else if b < a then false else listCharLt as bs

/-- Byte-wise string order, see listCharLt. -/
def strLt (s t : String) : Bool := listCharLt s.data t.data

/-- filepath.Dir of a component path (drop the final component). -/
def pathDir (p : Path) : Path := p.dropLast

/-- filepath.Base of a component path (its final component). -/
def pathBase (p : Path) : String := p.getLastD ""

/-- Join a component path back into a slash-separated string. -/
def joinPath : Path → String
  | [] => ""
  | [c] => c
  | c :: rest => c ++ "/" ++ joinPath rest

/-- The hash set passed to Commit: map from repository-relative path to the
hash values registered for it (map[string]data.Hashes; only the hash value
strings are consumed, via hash.String()). -/
abbrev HashSet := List (Path × List String)

/-- Go map lookup hashes[path]: the nil (empty) hash list when absent. -/
def lookupHashes : HashSet → Path → List String
  | [], _ => []
  | e :: t, p => if e.1 = p then e.2 else lookupHashes t p

/-- Go two-valued map lookup: is path a key of the hash set. -/
def hashesHasKey : HashSet → Path → Bool
  | [], _ => false
  | e :: t, p => if e.1 = p then true else hashesHasKey t p

/-- hashedPaths of local_store.go: one sibling path per registered hash,
with filename "hash.originalname", in the same directory. -/
def hashedPaths (rel : Path) (hs : List String) : List Path :=
  hs.map (fun h => pathDir rel ++ [h ++ "." ++ pathBase rel])

/-- shouldCopyHashed of fileSystemStore.Commit:
consistentSnapshot && path != "timestamp.json". -/
def shouldCopyHashed (cs : Bool) (rel : Path) : Bool :=
  cs && !(decide (rel = ["timestamp.json"]))

/-- shouldCopyUnhashed of fileSystemStore.Commit:
!consistentSnapshot || path == "root.json" || path == "timestamp.json". -/
def shouldCopyUnhashed (cs : Bool) (rel : Path) : Bool :=
  !cs || decide (rel = ["root.json"]) || decide (rel = ["timestamp.json"])

/-- The destination paths to which copyToRepo copies one staged file at
staged-relative path rel (the paths slice built before the fan-out copy). -/
def stagedDestPaths (cs : Bool) (hashes : HashSet) (rel : Path) : List Path :=
  (if shouldCopyHashed cs rel then hashedPaths rel (lookupHashes hashes rel) else [])
    ++ (if shouldCopyUnhashed cs rel then [rel] else [])

/-- Fan-out copy of one staged file to all of its destination paths
(io.Copy through io.MultiWriter: every destination gets the same bytes). -/
def writeAll (dests : List Path) (b : Bytes) (t : Tree) : Tree :=
  dests.foldl (fun acc d => treeInsert acc d b) t

/-- Phase 1 of Commit: walk the staged tree and copy every regular file to
its destination paths in the repository tree. -/
def publishPass (cs : Bool) (hashes : HashSet) (staged : Tree) (repo : Tree) : Tree :=
  staged.foldl (fun acc e => writeAll (stagedDestPaths cs hashes e.1) e.2 acc) repo

/-- isTarget of fileSystemStore.Commit: strings.HasPrefix(path, "targets")
on the joined relative path, which (as "targets" has no slash) holds iff
the first component of the path starts with "targets". -/
def isTarget (p : Path) : Bool :=
  match p with
  | [] => false
  | c :: _ => strStartsWith c "targets"

/-- needsRemoval of fileSystemStore.Commit.  Under consistentSnapshot it
splits the filename at the first dot; name[1] on the one-element slice
returned for a dotless filename is a Go runtime panic (index out of
range), modelled as none.  Otherwise: remove iff the (stripped) path is
not a key of the hash set; an empty part after the dot means keep. -/
def needsRemoval (cs : Bool) (hashes : HashSet) (p : Path) : Option Bool :=
  if cs then
    match splitN2Dot (pathBase p) with
    | [_, n1] =>
      if n1 = "" then some false
      else some (!hashesHasKey hashes (pathDir p ++ [n1]))
    | _ => none
  else some (!hashesHasKey hashes p)

/-- True when the garbage-collection walk of Commit panics: some target
file whose needsRemoval hits the index-out-of-range slice access. -/
def gcPanics (cs : Bool) (hashes : HashSet) (repo : Tree) : Bool :=
  repo.any (fun e => isTarget e.1 && (needsRemoval cs hashes e.1).isNone)

/-- Whether the garbage-collection pass leaves the file at path p in
place.  F is the set of paths whose os.Remove call fails; the Go code
ignores the error, so such a file stays. -/
def gcKeeps (cs : Bool) (hashes : HashSet) (F : Path → Bool) (p : Path) : Bool :=
  !(isTarget p && decide (needsRemoval cs hashes p = some true) && !(F p))

/-- Phase 2 of Commit: walk the repository tree, removing every target
file whose (stripped) path is absent from the hash set; none when the
walk panics on a dotless target filename. -/
def gcPass (cs : Bool) (hashes : HashSet) (F : Path → Bool) (repo : Tree) : Option Tree :=
  if gcPanics cs hashes repo then none
  else some (repo.filter (fun e => gcKeeps cs hashes F e.1))

/-- The durable backend: published tree (dir/repository) and staged tree
(dir/staged).  Staged targets live under the "targets" component of the
staged tree. -/
structure Store where
  repo : Tree
  staged : Tree
deriving DecidableEq

/-- Go runtime failures surfaced by the embedding. -/
inductive GoError
  | panicIndexOutOfRange
deriving DecidableEq

/-- fileSystemStore.Clean: remove the staged tree wholesale and recreate
an empty staged targets directory (no files). -/
def clean (st : Store) : Store := ⟨st.repo, []⟩

/-- fileSystemStore.Commit: publish the staged tree (Phase 1), garbage
collect the repository tree (Phase 2, which can panic), then Clean the
staging area.  On a Phase 2 panic nothing further runs: the staged tree is
left as it was and the repository is left partially collected. -/
def commit (cs : Bool) (hashes : HashSet) (F : Path → Bool) (st : Store) : Except GoError Store :=
  let repo1 := publishPass cs hashes st.staged st.repo
  match gcPass cs hashes F repo1 with
  | some repo2 => .ok (clean ⟨repo2, st.staged⟩)
  | none => .error .panicIndexOutOfRange

/-- Store errors: the typed ErrFileNotFound (carrying the path it names)
as distinguished from any other I/O error. -/
inductive StoreErr
  | fileNotFound (path : String)
  | ioError
deriving DecidableEq

/-- fileSystemStore.GetStagedTarget: open staged/targets/path; a missing
file is reported as the typed ErrFileNotFound carrying that path. -/
def fsGetStagedTarget (st : Store) (p : Path) : Except StoreErr Bytes :=
  match treeFind st.staged ("targets" :: p) with
  | some b => .ok b
  | none => .error (.fileNotFound (joinPath ("staged" :: "targets" :: p)))

/-- Association-list lookup with string keys (Go map read). -/
def assocFind {α : Type} : List (String × α) → String → Option α
  | [], _ => none
  | e :: t, k => if e.1 = k then some e.2 else assocFind t k

/-- memoryStore.GetStagedTarget over the files field: a missing key is the
typed ErrFileNotFound carrying the requested path. -/
def memGetStagedTarget (files : List (String × Bytes)) (p : String) : Except StoreErr Bytes :=
  match assocFind files p with
  | some b => .ok b
  | none => .error (.fileNotFound p)

/-- Modelled from the spec: the list topLevelManifests is declared outside
local_store.go; per the spec the recognized top-level manifest names are
the root, targets, snapshot and timestamp documents. -/
def topLevelManifests : List String := ["root.json", "targets.json", "snapshot.json", "timestamp.json"]

/-- fileSystemStore.GetMeta, viewed extensionally: the returned map binds
each recognized top-level manifest name to its staged bytes when staged,
else its published bytes when published, and omits it otherwise. -/
def getMeta (st : Store) (name : String) : Option Bytes :=
  if name ∈ topLevelManifests then
    match treeFind st.staged [name] with
    | some b => some b
    | none => treeFind st.repo [name]
  else none

/-- fileSystemStore.SetMeta: write the document into the staged tree. -/
def setMeta (st : Store) (name : String) (b : Bytes) : Store :=
  ⟨st.repo, treeInsert st.staged [name] b⟩

/-- A signing key as this layer sees it: its ID (data.Key.ID) and its
otherwise opaque material; JSON encode/decode round-trips it. -/
structure Key where
  id : String
  body : Nat
deriving DecidableEq

/-- The keys directory of the durable backend: filename to decoded key,
kept in the byte-wise sorted order in which ioutil.ReadDir lists it. -/
abbrev KeyDir := List (String × Key)

/-- Insert a file in a sorted directory listing, overwriting an existing
file of the same name (ioutil.WriteFile). -/
def dirInsert (name : String) (k : Key) : KeyDir → KeyDir
  | [] => [(name, k)]
  | e :: rest =>
    if strLt name e.1 then (name, k) :: e :: rest
    else if name = e.1 then (name, k) :: rest
    else e :: dirInsert name k rest

/-- fileSystemStore.SaveKey: write the key as file role-keyid.json in the
keys directory. -/
def fsSaveKey (d : KeyDir) (role : String) (k : Key) : KeyDir :=
  dirInsert (role ++ "-" ++ k.id ++ ".json") k d

/-- fileSystemStore.GetKeys: read the keys directory in sorted order and
decode every file whose name begins with the role string. -/
def fsGetKeys (d : KeyDir) (role : String) : List Key :=
  (d.filter (fun e => strStartsWith e.1 role)).map (fun e => e.2)

/-- The keys field of memoryStore: role to saved keys, in insertion order. -/
abbrev MemKeys := List (String × List Key)

/-- memoryStore.SaveKey: append the key to the exact role entry, creating
the entry when absent. -/
def memSaveKey (keys : MemKeys) (role : String) (k : Key) : MemKeys :=
  match keys with
  | [] => [(role, [k])]
  | e :: rest => if e.1 = role then (role, e.2 ++ [k]) :: rest else e :: memSaveKey rest role k

/-- memoryStore.GetKeys: exact map lookup, nil (empty) when absent. -/
def memGetKeys (keys : MemKeys) (role : String) : List Key :=
  (assocFind keys role).getD []

/-- Run a sequence of memoryStore.SaveKey calls. -/
def memSaveAll (keys : MemKeys) (ops : List (String × Key)) : MemKeys :=
  ops.foldl (fun acc op => memSaveKey acc op.1 op.2) keys

end GoTuf

namespace GoTuf

/-- Modelled from the spec: the logical path of a published repository
file — under consistentSnapshot the filename with its leading "hash."
prefix stripped (the directory itself when the remainder is empty, the
path unchanged when there is no delimiter); the path itself otherwise. -/
def claimLogicalPath (cs : Bool) (p : Path) : Path :=
  if cs then
    match splitN2Dot (pathBase p) with
    | [_, n1] => if n1 = "" then pathDir p else pathDir p ++ [n1]
    | _ => p
  else p

/-- A filename on which the hash-prefix strip of the garbage-collection
pass is well defined: it splits at a dot and the part after the first dot
is nonempty. -/
def hashStripWellFormed (s : String) : Bool :=
  match splitN2Dot s with
  | [_, n1] => !(decide (n1 = ""))
  | _ => false

theorem treeFind_insert_self (t : Tree) (p : Path) (b : Bytes) :
    treeFind (treeInsert t p b) p = some b := by
  induction t with
  | nil => simp [treeInsert, treeFind]
  | cons e t ih =>
    by_cases h : e.1 = p <;> simp [treeInsert, treeFind, h, ih]

theorem treeFind_insert_ne (t : Tree) (p q : Path) (b : Bytes) (h : q ≠ p) :
    treeFind (treeInsert t p b) q = treeFind t q := by
  induction t with
  | nil => simp [treeInsert, treeFind, Ne.symm h]
  | cons e t ih =>
    by_cases he : e.1 = p
    · subst he
      simp [treeInsert, treeFind, Ne.symm h]
    · simp [treeInsert, treeFind, he, ih]

theorem treeFind_eq_some_mem {l : Tree} {q : Path} {b : Bytes}
    (h : treeFind l q = some b) : (q, b) ∈ l := by
  induction l with
  | nil => simp [treeFind] at h
  | cons e l ih =>
    by_cases he : e.1 = q
    · subst he
      simp [treeFind] at h
      simp [← h]
    · simp [treeFind, he] at h
      exact List.mem_cons_of_mem _ (ih h)

theorem treeFind_eq_none_forall {l : Tree} {q : Path}
    (h : treeFind l q = none) : ∀ e ∈ l, e.1 ≠ q := by
  induction l with
  | nil => intro e he; simp at he
  | cons e l ih =>
    rw [treeFind] at h
    by_cases he : e.1 = q
    · simp [he] at h
    · rw [if_neg he] at h
      intro f hf
      rcases List.mem_cons.mp hf with rfl | hf2
      · exact he
      · exact ih h f hf2

theorem treeFind_none_of_forall {l : Tree} {q : Path}
    (h : ∀ e ∈ l, e.1 ≠ q) : treeFind l q = none := by
  induction l with
  | nil => rfl
  | cons e l ih =>
    rw [treeFind, if_neg (h e (List.mem_cons_self _ _))]
    exact ih (fun f hf => h f (List.mem_cons_of_mem _ hf))

theorem treeFind_filter (P : Path → Bool) (l : Tree) (q : Path) :
    treeFind (l.filter (fun e => P e.1)) q = if P q then treeFind l q else none := by
  induction l with
  | nil => simp [treeFind]
  | cons e l ih =>
    by_cases he : e.1 = q
    · subst he
      by_cases hP : P e.1 <;> simp [List.filter, hP, treeFind, ih]
    · by_cases hP : P e.1 <;> simp [List.filter, hP, treeFind, he, ih]

theorem writeAll_find_not_mem (dests : List Path) (b : Bytes) (t : Tree) (q : Path)
    (h : q ∉ dests) : treeFind (writeAll dests b t) q = treeFind t q := by
  induction dests generalizing t with
  | nil => rfl
  | cons d ds ih =>
    simp only [List.mem_cons, not_or] at h
    show treeFind (writeAll ds b (treeInsert t d b)) q = treeFind t q
    rw [ih (treeInsert t d b) h.2, treeFind_insert_ne _ _ _ _ h.1]

theorem writeAll_find_mem (dests : List Path) (b : Bytes) (t : Tree) (q : Path)
    (h : q ∈ dests) : treeFind (writeAll dests b t) q = some b := by
  induction dests generalizing t with
  | nil => simp at h
  | cons d ds ih =>
    show treeFind (writeAll ds b (treeInsert t d b)) q = some b
    by_cases hds : q ∈ ds
    · exact ih (treeInsert t d b) hds
    · have hd : q = d := by
        rcases List.mem_cons.mp h with hh | hh
        · exact hh
        · exact absurd hh hds
      rw [writeAll_find_not_mem ds b (treeInsert t d b) q hds, hd, treeFind_insert_self]

theorem writeAll_find_isSome (dests : List Path) (b : Bytes) (t : Tree) (q : Path)
    (h : (treeFind t q).isSome = true) : (treeFind (writeAll dests b t) q).isSome = true := by
  by_cases hm : q ∈ dests
  · rw [writeAll_find_mem dests b t q hm]; rfl
  · rw [writeAll_find_not_mem dests b t q hm]; exact h

theorem publishPass_isSome_mono (cs : Bool) (hashes : HashSet) (staged : Tree) (repo : Tree)
    (q : Path) (h : (treeFind repo q).isSome = true) :
    (treeFind (publishPass cs hashes staged repo) q).isSome = true := by
  induction staged generalizing repo with
  | nil => exact h
  | cons e rest ih =>
    show (treeFind (publishPass cs hashes rest (writeAll (stagedDestPaths cs hashes e.1) e.2 repo)) q).isSome = true
    exact ih _ (writeAll_find_isSome _ _ _ _ h)

theorem publishPass_find_isSome (cs : Bool) (hashes : HashSet) (staged : Tree) (repo : Tree)
    (q : Path) (hw : ∃ e ∈ staged, q ∈ stagedDestPaths cs hashes e.1) :
    (treeFind (publishPass cs hashes staged repo) q).isSome = true := by
  induction staged generalizing repo with
  | nil => simp at hw
  | cons e rest ih =>
    show (treeFind (publishPass cs hashes rest (writeAll (stagedDestPaths cs hashes e.1) e.2 repo)) q).isSome = true
    rcases hw with ⟨f, hf, hq⟩
    rcases List.mem_cons.mp hf with rfl | hh
    · refine publishPass_isSome_mono cs hashes rest _ q ?_
      rw [writeAll_find_mem _ _ _ _ hq]; rfl
    · exact ih _ ⟨f, hh, hq⟩

theorem publishPass_find_not_dest (cs : Bool) (hashes : HashSet) (staged : Tree) (repo : Tree)
    (q : Path) (hnot : ∀ e ∈ staged, q ∉ stagedDestPaths cs hashes e.1) :
    treeFind (publishPass cs hashes staged repo) q = treeFind repo q := by
  induction staged generalizing repo with
  | nil => rfl
  | cons e rest ih =>
    show treeFind (publishPass cs hashes rest (writeAll (stagedDestPaths cs hashes e.1) e.2 repo)) q = treeFind repo q
    rw [ih _ (fun f hf => hnot f (List.mem_cons_of_mem _ hf)),
      writeAll_find_not_mem _ _ _ _ (hnot e (List.mem_cons_self _ _))]

theorem stagedDestPaths_cs_false (hashes : HashSet) (rel : Path) :
    stagedDestPaths false hashes rel = [rel] := by
  simp [stagedDestPaths, shouldCopyHashed, shouldCopyUnhashed]

theorem gcKeeps_of_not_target (cs : Bool) (hashes : HashSet) (F : Path → Bool) (p : Path)
    (h : isTarget p = false) : gcKeeps cs hashes F p = true := by
  simp [gcKeeps, h]

theorem gcPanics_cs_false (hashes : HashSet) (l : Tree) :
    gcPanics false hashes l = false := by
  simp [gcPanics, needsRemoval]

theorem commit_ok_elim {cs : Bool} {hashes : HashSet} {F : Path → Bool} {st st' : Store}
    (hc : commit cs hashes F st = .ok st') :
    gcPanics cs hashes (publishPass cs hashes st.staged st.repo) = false ∧
      st'.repo = (publishPass cs hashes st.staged st.repo).filter
        (fun e => gcKeeps cs hashes F e.1) ∧
      st'.staged = [] := by
  by_cases hp : gcPanics cs hashes (publishPass cs hashes st.staged st.repo) = true
  · rw [commit, gcPass, if_pos hp] at hc
    exact absurd hc (by simp)
  · have hp2 : gcPanics cs hashes (publishPass cs hashes st.staged st.repo) = false :=
      Bool.eq_false_iff.mpr hp
    rw [commit, gcPass, if_neg (by simp [hp2])] at hc
    have := Except.ok.inj hc
    refine ⟨hp2, ?_, ?_⟩ <;> rw [← this] <;> rfl

theorem pub_plain_find_none (hashes : HashSet) (staged repo : Tree) (q : Path)
    (h : treeFind staged q = none) :
    treeFind (publishPass false hashes staged repo) q = treeFind repo q := by
  refine publishPass_find_not_dest false hashes staged repo q ?_
  intro e he
  rw [stagedDestPaths_cs_false]
  simp only [List.mem_singleton]
  exact fun hh => treeFind_eq_none_forall h e he hh.symm

theorem pub_plain_find_some (hashes : HashSet) (staged repo : Tree) (q : Path) (b : Bytes)
    (hnd : (staged.map Prod.fst).Nodup) (h : treeFind staged q = some b) :
    treeFind (publishPass false hashes staged repo) q = some b := by
  induction staged generalizing repo with
  | nil => simp [treeFind] at h
  | cons e rest ih =>
    rw [List.map_cons, List.nodup_cons] at hnd
    show treeFind (publishPass false hashes rest (writeAll (stagedDestPaths false hashes e.1) e.2 repo)) q = some b
    by_cases he : e.1 = q
    · subst he
      rw [treeFind, if_pos rfl] at h
      have hrest : treeFind rest e.1 = none := by
        refine treeFind_none_of_forall ?_
        intro f hf hfe
        exact hnd.1 (hfe ▸ List.mem_map_of_mem Prod.fst hf)
      rw [pub_plain_find_none hashes rest _ _ hrest, stagedDestPaths_cs_false]
      show treeFind (treeInsert repo e.1 e.2) e.1 = some b
      rw [treeFind_insert_self, h]
    · rw [treeFind, if_neg he] at h
      exact ih _ hnd.2 h

/-- C1: with consistentSnapshot=true, a staged file other than the root
and timestamp manifests is published only under hash-prefixed names, one
sibling path hash.filename per hash pair registered for its staged-relative
path, and when its path has no entry in the hash set (so the lookup yields
the empty hash list) committing it publishes nothing for it at all. -/
theorem c1_snapshot_publishes_hashed_only (hashes : HashSet) (rel : Path)
    (h1 : rel ≠ ["root.json"]) (h2 : rel ≠ ["timestamp.json"]) :
    stagedDestPaths true hashes rel
        = (lookupHashes hashes rel).map (fun h => pathDir rel ++ [h ++ "." ++ pathBase rel]) ∧
      (lookupHashes hashes rel = [] →
        ∀ (b : Bytes) (repo : Tree) (q : Path),
          treeFind (publishPass true hashes [(rel, b)] repo) q = treeFind repo q) := by
  constructor
  · simp [stagedDestPaths, shouldCopyHashed, shouldCopyUnhashed, h1, h2, hashedPaths]
  · intro hl b repo q
    have hd : stagedDestPaths true hashes rel = [] := by
      simp [stagedDestPaths, shouldCopyHashed, shouldCopyUnhashed, h1, h2, hashedPaths, hl]
    show treeFind (writeAll (stagedDestPaths true hashes rel) b repo) q = treeFind repo q
    rw [hd]
    rfl

/-- Witness for C1 at the concrete staged path targets/foo.txt with an
empty hash set. -/
theorem c1_snapshot_publishes_hashed_only_witness :
    (["targets", "foo.txt"] : Path) ≠ ["root.json"] ∧
      (["targets", "foo.txt"] : Path) ≠ ["timestamp.json"] ∧
      (stagedDestPaths true [] ["targets", "foo.txt"]
          = (lookupHashes [] ["targets", "foo.txt"]).map
              (fun h => pathDir ["targets", "foo.txt"] ++ [h ++ "." ++ pathBase ["targets", "foo.txt"]]) ∧
        (lookupHashes [] ["targets", "foo.txt"] = [] →
          ∀ (b : Bytes) (repo : Tree) (q : Path),
            treeFind (publishPass true [] [(["targets", "foo.txt"], b)] repo) q = treeFind repo q)) :=
  ⟨by decide, by decide,
    c1_snapshot_publishes_hashed_only [] ["targets", "foo.txt"] (by decide) (by decide)⟩

/-- C3: for any Commit that completes, staged root and timestamp manifests
are published under their plain unhashed names regardless of the
consistent-snapshot flag: the repository afterwards contains files at the
plain paths root.json and timestamp.json. -/
theorem c3_root_timestamp_published_unhashed (cs : Bool) (hashes : HashSet) (F : Path → Bool)
    (st st' : Store) (br bt : Bytes)
    (hc : commit cs hashes F st = .ok st')
    (hr : (["root.json"], br) ∈ st.staged)
    (ht : (["timestamp.json"], bt) ∈ st.staged) :
    (treeFind st'.repo ["root.json"]).isSome = true ∧
      (treeFind st'.repo ["timestamp.json"]).isSome = true := by
  obtain ⟨hp, hrepo, hstaged⟩ := commit_ok_elim hc
  have hroot : ["root.json"] ∈ stagedDestPaths cs hashes ["root.json"] := by
    cases cs <;> simp [stagedDestPaths, shouldCopyUnhashed, shouldCopyHashed]
  have hts : ["timestamp.json"] ∈ stagedDestPaths cs hashes ["timestamp.json"] := by
    cases cs <;> simp [stagedDestPaths, shouldCopyUnhashed, shouldCopyHashed]
  constructor
  · rw [hrepo, treeFind_filter, if_pos (gcKeeps_of_not_target cs hashes F _ (by decide))]
    exact publishPass_find_isSome _ _ _ _ _ ⟨_, hr, hroot⟩
  · rw [hrepo, treeFind_filter, if_pos (gcKeeps_of_not_target cs hashes F _ (by decide))]
    exact publishPass_find_isSome _ _ _ _ _ ⟨_, ht, hts⟩

/-- Witness for C3: a consistent-snapshot Commit of a staged tree holding
root and timestamp manifests, with an empty hash set. -/
theorem c3_root_timestamp_published_unhashed_witness :
    commit true [] (fun _ => false) ⟨[], [(["root.json"], [0]), (["timestamp.json"], [1])]⟩
        = .ok ⟨[(["root.json"], [0]), (["timestamp.json"], [1])], []⟩ ∧
      (["root.json"], ([0] : Bytes)) ∈ [(["root.json"], ([0] : Bytes)), (["timestamp.json"], [1])] ∧
      (["timestamp.json"], ([1] : Bytes)) ∈ [(["root.json"], ([0] : Bytes)), (["timestamp.json"], [1])] ∧
      ((treeFind ([(["root.json"], [0]), (["timestamp.json"], [1])] : Tree) ["root.json"]).isSome = true ∧
        (treeFind ([(["root.json"], [0]), (["timestamp.json"], [1])] : Tree) ["timestamp.json"]).isSome = true) :=
  ⟨rfl, by decide, by decide,
    c3_root_timestamp_published_unhashed true [] (fun _ => false)
      ⟨[], [(["root.json"], [0]), (["timestamp.json"], [1])]⟩
      ⟨[(["root.json"], [0]), (["timestamp.json"], [1])], []⟩ [0] [1]
      rfl (by decide) (by decide)⟩

/-- C4: the hash-prefix recovery step of the garbage-collection pass is
not total: on a published target file whose filename has no dot, the
slice access name[1] in needsRemoval is an index-out-of-range runtime
panic, so the whole Commit crashes instead of treating the filename as
its own logical path. -/
theorem c4_dotless_target_filename_panics :
    needsRemoval true [] ["targets", "foo"] = none ∧
      commit true [] (fun _ => false) ⟨[(["targets", "foo"], [1])], []⟩
        = .error .panicIndexOutOfRange :=
  ⟨rfl, rfl⟩

/-- C2 counterexample: with consistentSnapshot=true and an empty hash set,
a published target file named foo. (dot last, empty remainder) survives
the garbage-collection pass of Commit even though its logical path has no
entry in the hash set, because needsRemoval returns false for an empty
part after the dot. -/
theorem c2_gc_invariant_counterexample :
    commit true [] (fun _ => false) ⟨[(["targets", "foo."], [1])], []⟩
        = .ok ⟨[(["targets", "foo."], [1])], []⟩ ∧
      (["targets", "foo."] : Path).head? = some "targets" ∧
      hashesHasKey [] (claimLogicalPath true ["targets", "foo."]) = false ∧
      treeFind ([(["targets", "foo."], [1])] : Tree) ["targets", "foo."] = some [1] :=
  ⟨rfl, rfl, by decide, by decide⟩

/-- C2 amended: in either snapshot mode, after a Commit that completes
with no deletion failures, every file remaining under the targets subtree
has its logical path registered in the hash set — the path itself when
consistentSnapshot is false, and the hash-stripped path when it is true,
provided there the filename splits at a dot with a nonempty remainder;
contrapositively, a previously published target absent from the hash set
is deleted. -/
theorem c2_gc_removes_unregistered_targets (cs : Bool) (hashes : HashSet) (st st' : Store)
    (p : Path) (b : Bytes)
    (hc : commit cs hashes (fun _ => false) st = .ok st')
    (hmem : (p, b) ∈ st'.repo)
    (hhead : p.head? = some "targets")
    (hwf : cs = true → hashStripWellFormed (pathBase p) = true) :
    hashesHasKey hashes (claimLogicalPath cs p) = true := by
  obtain ⟨hp, hrepo, hstaged⟩ := commit_ok_elim hc
  rw [hrepo, List.mem_filter] at hmem
  obtain ⟨hmem1, hkeep⟩ := hmem
  have htgt : isTarget p = true := by
    cases p with
    | nil => simp at hhead
    | cons c rest =>
      simp at hhead
      subst hhead
      show strStartsWith "targets" "targets" = true
      decide
  cases cs with
  | false =>
    have hnr : needsRemoval false hashes p = some (!hashesHasKey hashes p) := by
      simp [needsRemoval]
    simp only [gcKeeps, htgt, hnr] at hkeep
    simp at hkeep
    simp [claimLogicalPath, hkeep]
  | true =>
    have hw := hwf rfl
    rcases hs : splitN2Dot (pathBase p) with _ | ⟨a, rest⟩
    · simp [hashStripWellFormed, hs] at hw
    · rcases rest with _ | ⟨n1, rest2⟩
      · simp [hashStripWellFormed, hs] at hw
      · rcases rest2 with _ | ⟨x, rest3⟩
        · simp [hashStripWellFormed, hs] at hw
          have hnr : needsRemoval true hashes p
              = some (!hashesHasKey hashes (pathDir p ++ [n1])) := by
            simp [needsRemoval, hs, hw]
          simp only [gcKeeps, htgt, hnr] at hkeep
          simp at hkeep
          simp [claimLogicalPath, hs, hw, hkeep]
        · simp [hashStripWellFormed, hs] at hw

/-- Witness for C2 amended, exercising both snapshot modes: under
consistentSnapshot a stale hashed target is collected and the surviving
one has its stripped path in the hash set; in plain mode a surviving
target has its own path in the hash set. -/
theorem c2_gc_removes_unregistered_targets_witness :
    (commit true [(["targets", "foo.txt"], ["h"])] (fun _ => false)
        ⟨[(["targets", "h.foo.txt"], [1]), (["targets", "h.old.txt"], [2])], []⟩
        = .ok ⟨[(["targets", "h.foo.txt"], [1])], []⟩ ∧
      (["targets", "h.foo.txt"], ([1] : Bytes)) ∈ ([(["targets", "h.foo.txt"], [1])] : Tree) ∧
      (["targets", "h.foo.txt"] : Path).head? = some "targets" ∧
      (true = true → hashStripWellFormed (pathBase ["targets", "h.foo.txt"]) = true) ∧
      hashesHasKey [(["targets", "foo.txt"], ["h"])]
        (claimLogicalPath true ["targets", "h.foo.txt"]) = true) ∧
    (commit false [(["targets", "t.txt"], ["h"])] (fun _ => false)
        ⟨[], [(["targets", "t.txt"], [2])]⟩
        = .ok ⟨[(["targets", "t.txt"], [2])], []⟩ ∧
      (["targets", "t.txt"], ([2] : Bytes)) ∈ ([(["targets", "t.txt"], [2])] : Tree) ∧
      (["targets", "t.txt"] : Path).head? = some "targets" ∧
      (false = true → hashStripWellFormed (pathBase ["targets", "t.txt"]) = true) ∧
      hashesHasKey [(["targets", "t.txt"], ["h"])]
        (claimLogicalPath false ["targets", "t.txt"]) = true) :=
  ⟨⟨rfl, by decide, rfl, by decide,
    c2_gc_removes_unregistered_targets true [(["targets", "foo.txt"], ["h"])]
      ⟨[(["targets", "h.foo.txt"], [1]), (["targets", "h.old.txt"], [2])], []⟩
      ⟨[(["targets", "h.foo.txt"], [1])], []⟩
      ["targets", "h.foo.txt"] [1]
      rfl (by decide) rfl (by decide)⟩,
   ⟨rfl, by decide, rfl, by decide,
    c2_gc_removes_unregistered_targets false [(["targets", "t.txt"], ["h"])]
      ⟨[], [(["targets", "t.txt"], [2])]⟩
      ⟨[(["targets", "t.txt"], [2])], []⟩
      ["targets", "t.txt"] [2]
      rfl (by decide) rfl (by decide)⟩⟩

/-- C5 counterexample: with consistentSnapshot=false, a staged target
whose path is absent from the hash set is first published and then removed
again by the garbage-collection pass of the same Commit, so the published
tree does not equal the pre-commit staged tree. -/
theorem c5_plain_commit_counterexample :
    commit false [] (fun _ => false) ⟨[], [(["targets", "foo.txt"], [1])]⟩ = .ok ⟨[], []⟩ ∧
      treeFind ([] : Tree) ["targets", "foo.txt"]
        ≠ treeFind ([(["targets", "foo.txt"], [1])] : Tree) ["targets", "foo.txt"] :=
  ⟨rfl, by decide⟩

/-- C5 amended: with consistentSnapshot=false, starting from an empty
repository, committing a staged tree with distinct paths in which every
target-prefixed path has an entry in the hash set yields a published tree
extensionally equal to the staged tree, with no hashed duplicates, and
leaves the staging area empty. -/
theorem c5_plain_commit_publishes_staged_tree (hashes : HashSet) (staged : Tree)
    (hnd : (staged.map Prod.fst).Nodup)
    (htgt : ∀ e ∈ staged, isTarget e.1 = true → hashesHasKey hashes e.1 = true) :
    ∃ st', commit false hashes (fun _ => false) ⟨[], staged⟩ = .ok st' ∧
      (∀ q, treeFind st'.repo q = treeFind staged q) ∧ st'.staged = [] := by
  have hp : gcPanics false hashes (publishPass false hashes staged []) = false :=
    gcPanics_cs_false _ _
  refine ⟨⟨(publishPass false hashes staged []).filter
      (fun e => gcKeeps false hashes (fun _ => false) e.1), []⟩, ?_, ?_, rfl⟩
  · simp [commit, gcPass, hp, clean]
  · intro q
    rw [treeFind_filter]
    cases hq : treeFind staged q with
    | some b =>
      have hpub : treeFind (publishPass false hashes staged []) q = some b :=
        pub_plain_find_some hashes staged [] q b hnd hq
      have hkeep : gcKeeps false hashes (fun _ => false) q = true := by
        by_cases ht : isTarget q = true
        · have hmem := treeFind_eq_some_mem hq
          have hk := htgt _ hmem ht
          simp [gcKeeps, ht, needsRemoval, hk]
        · exact gcKeeps_of_not_target _ _ _ _ (Bool.eq_false_iff.mpr ht)
      rw [if_pos hkeep, hpub]
    | none =>
      have hpub : treeFind (publishPass false hashes staged []) q = none := by
        rw [pub_plain_find_none hashes staged [] q hq]; rfl
      split
      · rw [hpub]
      · rfl

/-- Witness for C5 amended: a staged metadata document and a staged target
registered in the hash set. -/
theorem c5_plain_commit_publishes_staged_tree_witness :
    (([(["root.json"], [0]), (["targets", "t.txt"], [2])] : Tree).map Prod.fst).Nodup ∧
      (∀ e ∈ ([(["root.json"], [0]), (["targets", "t.txt"], [2])] : Tree),
        isTarget e.1 = true → hashesHasKey [(["targets", "t.txt"], ["h"])] e.1 = true) ∧
      (∃ st', commit false [(["targets", "t.txt"], ["h"])] (fun _ => false)
            ⟨[], [(["root.json"], [0]), (["targets", "t.txt"], [2])]⟩ = .ok st' ∧
          (∀ q, treeFind st'.repo q
            = treeFind ([(["root.json"], [0]), (["targets", "t.txt"], [2])] : Tree) q) ∧
          st'.staged = []) :=
  ⟨by decide, by decide,
    c5_plain_commit_publishes_staged_tree [(["targets", "t.txt"], ["h"])]
      [(["root.json"], [0]), (["targets", "t.txt"], [2])] (by decide) (by decide)⟩

/-- C7 counterexample: a document staged under a name outside the
recognized top-level manifest list is omitted by GetMeta, so SetMeta
followed by GetMeta does not return it. -/
theorem c7_setmeta_getmeta_counterexample :
    getMeta (setMeta ⟨[], []⟩ "foo.json" [5]) "foo.json" ≠ some [5] := by
  decide

/-- C7 amended: for every recognized top-level manifest name, SetMeta
followed immediately by GetMeta returns the staged bytes, the staged
version taking precedence over any published version. -/
theorem c7_setmeta_getmeta_roundtrip (st : Store) (name : String) (b : Bytes)
    (h : name ∈ topLevelManifests) :
    getMeta (setMeta st name b) name = some b := by
  simp [getMeta, setMeta, h, treeFind_insert_self]

/-- Witness for C7 amended: root.json staged over a differing published
version. -/
theorem c7_setmeta_getmeta_roundtrip_witness :
    "root.json" ∈ topLevelManifests ∧
      getMeta (setMeta ⟨[(["root.json"], [9])], []⟩ "root.json" [5]) "root.json" = some [5] :=
  ⟨by decide, c7_setmeta_getmeta_roundtrip ⟨[(["root.json"], [9])], []⟩ "root.json" [5] (by decide)⟩

/-- C8 counterexample: Phase 1 succeeds (a staged root manifest is
published), but the garbage-collection walk panics on a dotless target
filename, so the commit aborts before Phase 3 and the staging area is
never cleared. -/
theorem c8_clean_counterexample :
    commit true [] (fun _ => false) ⟨[(["targets", "noext"], [1])], [(["root.json"], [7])]⟩
      = .error .panicIndexOutOfRange :=
  rfl

/-- C8 amended: whenever the garbage-collection walk completes without
panicking, the commit succeeds and resets the staging area exactly as
Clean does, for every set F of per-file deletion failures: failed
deletions never abort the commit. -/
theorem c8_commit_always_cleans_staging (cs : Bool) (hashes : HashSet) (F : Path → Bool)
    (st : Store)
    (h : gcPanics cs hashes (publishPass cs hashes st.staged st.repo) = false) :
    ∃ repo2, commit cs hashes F st = .ok (clean ⟨repo2, st.staged⟩) := by
  refine ⟨(publishPass cs hashes st.staged st.repo).filter
    (fun e => gcKeeps cs hashes F e.1), ?_⟩
  simp [commit, gcPass, h]

/-- Witness for C8 amended: every deletion fails (F is constantly true),
yet the commit succeeds and clears staging. -/
theorem c8_commit_always_cleans_staging_witness :
    gcPanics true [] (publishPass true []
        (Store.staged ⟨[(["targets", "h.foo"], [1])], [(["root.json"], [3])]⟩)
        (Store.repo ⟨[(["targets", "h.foo"], [1])], [(["root.json"], [3])]⟩)) = false ∧
      (∃ repo2, commit true [] (fun _ => true) ⟨[(["targets", "h.foo"], [1])], [(["root.json"], [3])]⟩
        = .ok (clean ⟨repo2, [(["root.json"], [3])]⟩)) :=
  ⟨by decide,
    c8_commit_always_cleans_staging true [] (fun _ => true)
      ⟨[(["targets", "h.foo"], [1])], [(["root.json"], [3])]⟩ (by decide)⟩

/-- C9: on both backends, requesting a staged target that is not staged
fails with the typed file-not-found error, never a generic one. -/
theorem c9_unstaged_target_not_found (st : Store) (files : List (String × Bytes))
    (pl : Path) (p : String)
    (hfs : treeFind st.staged ("targets" :: pl) = none)
    (hm : assocFind files p = none) :
    fsGetStagedTarget st pl
        = .error (.fileNotFound (joinPath ("staged" :: "targets" :: pl))) ∧
      memGetStagedTarget files p = .error (.fileNotFound p) := by
  constructor
  · simp [fsGetStagedTarget, hfs]
  · simp [memGetStagedTarget, hm]

/-- Witness for C9: missing.txt on empty staging areas of both backends. -/
theorem c9_unstaged_target_not_found_witness :
    treeFind (Store.staged ⟨[], []⟩) ("targets" :: ["missing.txt"]) = none ∧
      assocFind ([] : List (String × Bytes)) "missing.txt" = none ∧
      (fsGetStagedTarget ⟨[], []⟩ ["missing.txt"]
          = .error (.fileNotFound (joinPath ("staged" :: "targets" :: ["missing.txt"]))) ∧
        memGetStagedTarget [] "missing.txt" = .error (.fileNotFound "missing.txt")) :=
  ⟨rfl, rfl, c9_unstaged_target_not_found ⟨[], []⟩ [] ["missing.txt"] "missing.txt" rfl rfl⟩

theorem memGetKeys_saveKey (keys : MemKeys) (role r : String) (k : Key) :
    memGetKeys (memSaveKey keys role k) r
      = if role = r then memGetKeys keys r ++ [k] else memGetKeys keys r := by
  induction keys with
  | nil =>
    by_cases h : role = r <;> simp [memSaveKey, memGetKeys, assocFind, h]
  | cons e rest ih =>
    by_cases he : e.1 = role
    · by_cases hr : role = r
      · subst hr
        simp [memSaveKey, memGetKeys, assocFind, he]
      · have her : e.1 ≠ r := fun hh => hr (he.symm.trans hh)
        simp [memSaveKey, memGetKeys, assocFind, he, hr, her]
    · by_cases hr2 : e.1 = r
      · have hrr : role ≠ r := fun hh => he (hr2.trans hh.symm)
        simp [memSaveKey, memGetKeys, assocFind, he, hr2, hrr, Ne.symm hrr]
      · by_cases hr : role = r <;>
          simp [memSaveKey, memGetKeys, assocFind, he, hr2, hr] <;>
          simpa [memGetKeys, hr] using ih

theorem memSaveAll_getKeys (ops : List (String × Key)) (keys : MemKeys) (r : String) :
    memGetKeys (memSaveAll keys ops) r
      = memGetKeys keys r ++ (ops.filter (fun op => decide (op.1 = r))).map (fun op => op.2) := by
  induction ops generalizing keys with
  | nil => simp [memSaveAll]
  | cons op ops ih =>
    show memGetKeys (memSaveAll (memSaveKey keys op.1 op.2) ops) r = _
    rw [ih (memSaveKey keys op.1 op.2), memGetKeys_saveKey]
    by_cases h : op.1 = r <;> simp [h, List.filter]

/-- C10: the ephemeral backend's GetKeys matches the role exactly: after
any sequence of SaveKey calls it returns precisely the keys saved under
the identical role string, in insertion order (and the empty list for any
other role); in particular a key saved under rootx is not returned for
root. -/
theorem c10_memory_getkeys_exact_match :
    (∀ (ops : List (String × Key)) (r : String),
        memGetKeys (memSaveAll [] ops) r
          = (ops.filter (fun op => decide (op.1 = r))).map (fun op => op.2)) ∧
      (∀ k : Key, memGetKeys (memSaveKey [] "rootx" k) "root" = []) := by
  constructor
  · intro ops r
    rw [memSaveAll_getKeys]
    rfl
  · intro k
    rw [memGetKeys_saveKey]
    simp [memGetKeys, assocFind]

theorem rootx_filename_data (i : String) :
    ("rootx-" ++ i ++ ".json").data
      = 'r' :: 'o' :: 'o' :: 't' :: 'x' :: '-' :: (i.data ++ ".json".data) := by
  rw [String.data_append, String.data_append]
  rfl

theorem root_filename_data (i : String) :
    ("root-" ++ i ++ ".json").data
      = 'r' :: 'o' :: 'o' :: 't' :: '-' :: (i.data ++ ".json".data) := by
  rw [String.data_append, String.data_append]
  rfl

theorem strLt_rootx_root (i1 i2 : String) :
    strLt ("rootx-" ++ i2 ++ ".json") ("root-" ++ i1 ++ ".json") = false := by
  rw [strLt, rootx_filename_data, root_filename_data]
  simp [listCharLt]

theorem ne_rootx_root (i1 i2 : String) :
    ("rootx-" ++ i2 ++ ".json") ≠ ("root-" ++ i1 ++ ".json") := by
  intro h
  have hd := congrArg String.data h
  rw [rootx_filename_data, root_filename_data] at hd
  simp at hd

theorem startsWith_root_filename (i : String) :
    strStartsWith ("root-" ++ i ++ ".json") "root" = true := by
  rw [strStartsWith, root_filename_data]
  simp [List.isPrefixOf]

theorem startsWith_rootx_filename (i : String) :
    strStartsWith ("rootx-" ++ i ++ ".json") "root" = true := by
  rw [strStartsWith, rootx_filename_data]
  simp [List.isPrefixOf]

/-- C6 counterexample: on the durable backend, saving a key for role root
and one for role rootx makes GetKeys of root return both keys, because
the rootx key file name also begins with root. -/
theorem c6_fs_getkeys_counterexample :
    fsGetKeys (fsSaveKey (fsSaveKey [] "root" ⟨"id1", 1⟩) "rootx" ⟨"id2", 2⟩) "root"
      ≠ [⟨"id1", 1⟩] := by
  decide

/-- C6 amended: after SaveKey of k1 for role root and SaveKey of k2 for
role rootx, the durable GetKeys for root returns exactly the two-element
sequence k1 then k2: the rootx key file name also matches the filename
prefix check for root. -/
theorem c6_fs_getkeys_prefix_collision (k1 k2 : Key) :
    fsGetKeys (fsSaveKey (fsSaveKey [] "root" k1) "rootx" k2) "root" = [k1, k2] := by
  show fsGetKeys (dirInsert ("rootx-" ++ k2.id ++ ".json") k2
      (dirInsert ("root-" ++ k1.id ++ ".json") k1 [])) "root" = [k1, k2]
  rw [show dirInsert ("root-" ++ k1.id ++ ".json") k1 ([] : KeyDir)
      = [("root-" ++ k1.id ++ ".json", k1)] from rfl]
  rw [dirInsert, if_neg (by simp [strLt_rootx_root]), if_neg (ne_rootx_root k1.id k2.id)]
  simp [fsGetKeys, dirInsert, List.filter,
    startsWith_root_filename, startsWith_rootx_filename]

end GoTuf
